import Mathlib

/-!
Verification development for the Glance browser extension
(preview request orchestration and streaming summary pipeline).

JavaScript strings are embedded as `List Char`; platform services that the
code calls (JSON.parse, the URL constructor) are passed in as explicit
function parameters, while every piece of control flow and string
manipulation is translated directly from the TypeScript source.
-/

namespace Glance

/-- JS strings are modelled as lists of unicode scalar characters. -/
abbrev Str := List Char

/-- Embed a Lean string literal as a `Str`. -/
def str (s : String) : Str := s.data

/-- Whitespace recognised by `String.prototype.trim` (the code points that
occur in the payloads this program handles). -/
def isWsChar (c : Char) : Bool :=
  c == ' ' || c == '\t' || c == '\n' || c == '\r'

/-- `s.trim()` from JS: strip whitespace from both ends. -/
def strTrim (s : Str) : Str :=
  ((s.dropWhile isWsChar).reverse.dropWhile isWsChar).reverse

/-! ## JSON values

`JSON.parse` output is modelled by the inductive `Json`; the parser itself
is a platform service and is passed around as `parse : Str → Option Json`
(`none` models a `JSON.parse` exception on malformed input). -/

inductive Json where
  | jnull : Json
  | jbool : Bool → Json
  | jnum : Int → Json
  | jstr : Str → Json
  | jarr : List Json → Json
  | jobj : List (Str × Json) → Json

/-- Property access `obj[k]` (JS optional chaining yields `undefined`,
modelled as `none`, on non-objects and absent keys). -/
def jget (j : Json) (k : Str) : Option Json :=
  match j with
  | .jobj fields => (fields.find? (fun kv => kv.1 == k)).map (·.2)
  | _ => none

/-- Index access `arr[i]` under optional chaining. -/
def jindex (j : Json) (i : Nat) : Option Json :=
  match j with
  | .jarr xs => xs.get? i
  | _ => none

/-- `json.choices?.[0]?.delta?.content`, kept only when
`typeof content === 'string'` (source: background GENERATE_SUMMARY
handler). -/
def deltaContent (j : Json) : Option Str :=
  match ((jget j (str "choices")).bind (fun c => jindex c 0)
          |>.bind (fun e => jget e (str "delta"))
          |>.bind (fun d => jget d (str "content"))) with
  | some (.jstr s) => some s
  | _ => none

/-! ## Worker → requester messages -/

inductive WMsg where
  | chunk : Str → WMsg
  | done : WMsg
  | error : Str → WMsg
deriving DecidableEq

/-! ## SSE record processing (background GENERATE_SUMMARY handler)

The worker splits the accumulated body on `'\n'`, keeps the final segment
as the carry-over buffer, and interprets each complete line. -/

/-- `buffer.split('\n')` on embedded strings: always returns at least one
segment; a trailing `'\n'` yields a final empty segment. -/
def splitLines : Str → List Str
  | [] => [[]]
  | c :: cs =>
    if c = '\n' then [] :: splitLines cs
    else
      match splitLines cs with
      | [] => [[c]]
      | l :: ls => (c :: l) :: ls

/-- Processing of one complete line inside the read loop
(source: `for (const line of lines) { ... }`). -/
def processLine (parse : Str → Option Json) (line : Str) : List WMsg :=
  if strTrim line = [] then []
  else if strTrim line = str "data: [DONE]" then [WMsg.done]
  else if (str "data: ").isPrefixOf (strTrim line) then
    match parse ((strTrim line).drop 6) with
    | some j =>
      match deltaContent j with
      | some c => if c ≠ [] then [WMsg.chunk c] else []
      | none => []
    | none => []
  else []

/-- One `reader.read()` iteration: append the data to the buffer, split on
newlines, keep the last (possibly partial) segment as the new buffer and
process every complete line. -/
def processRead (parse : Str → Option Json) (buffer data : Str) :
    Str × List WMsg :=
  let lines := splitLines (buffer ++ data)
  (lines.getLastD [], (lines.dropLast).flatMap (processLine parse))

/-- Character-by-character reformulation of the same loop, used to prove
that output only depends on the concatenation of the reads. -/
def feedChar (parse : Str → Option Json) (st : Str × List WMsg) (c : Char) :
    Str × List WMsg :=
  if c = '\n' then ([], st.2 ++ processLine parse st.1)
  else (st.1 ++ [c], st.2)

def feed (parse : Str → Option Json) (st : Str × List WMsg) (data : Str) :
    Str × List WMsg :=
  data.foldl (feedChar parse) st

/-- The worker's `while (true) { reader.read() ... }` loop over the whole
sequence of network reads. -/
def streamLoop (parse : Str → Option Json) :
    Str × List WMsg → List Str → Str × List WMsg
  | st, [] => st
  | (buf, ms), d :: ds =>
    let r := processRead parse buf d
    streamLoop parse (r.1, ms ++ r.2) ds

/-- Handling of the remaining buffer after the stream ends
(source: `if (buffer.trim() && buffer.trim() !== 'data: [DONE]') ...`).
Note that unlike the in-loop case a trailing `data: [DONE]` record does
not itself produce a `SUMMARY_DONE` here. -/
def flushBuffer (parse : Str → Option Json) (buffer : Str) : List WMsg :=
  if strTrim buffer = [] ∨ strTrim buffer = str "data: [DONE]" then []
  else if (str "data: ").isPrefixOf (strTrim buffer) then
    match parse ((strTrim buffer).drop 6) with
    | some j =>
      match deltaContent j with
      | some c => if c ≠ [] then [WMsg.chunk c] else []
      | none => []
    | none => []
  else []

/-- Every message the worker sends for one successful (2xx, readable-body)
GENERATE_SUMMARY stream, given the list of decoded network reads: the loop
messages, the final-buffer messages, then the unconditional terminal
`SUMMARY_DONE`. -/
def runStream (parse : Str → Option Json) (reads : List Str) : List WMsg :=
  let r := streamLoop parse ([], []) reads
  r.2 ++ flushBuffer parse r.1 ++ [WMsg.done]

/-- The messages already sent when a body read rejects mid-stream: the loop
output for the reads that succeeded. The final-buffer handling and the
unconditional terminal SUMMARY_DONE are skipped because control jumps from
inside the `while` loop to the catch branch. -/
def runStreamAborted (parse : Str → Option Json) (reads : List Str) :
    List WMsg :=
  (streamLoop parse ([], []) reads).2

/-! ### Chunks and accumulated text -/

/-- The chunk payloads of a message list, in order. -/
def chunksOf (ms : List WMsg) : List Str :=
  ms.filterMap fun m =>
    match m with
    | WMsg.chunk c => some c
    | _ => none

/-- The requester listener's `accumulatedContent += msg.chunk`, folded over a
list of received messages. -/
def accumText (ms : List WMsg) : Str :=
  ms.foldl
    (fun acc m =>
      match m with
      | WMsg.chunk c => acc ++ c
      | _ => acc) []

/-! ### The whole GENERATE_SUMMARY exchange (background worker)

`Upstream` describes what the model endpoint does once the worker's fetch
settles; `workerRun` gives every message the worker sends to the tab after
the immediate `{ok:true}` acknowledgement. -/

inductive Upstream where
  | networkFail : Str → Upstream
  | httpFail : Nat → Option Str → Upstream
  | noBody : Upstream
  | stream : List Str → Upstream
  | streamFail : List Str → Str → Upstream

/-- `HTTP ${status}`, optionally extended with the provider-supplied detail
(`error.message` / `message` of the parsed JSON body, else the truncated
body text); the derived detail string is an environment input here. -/
def httpErrorMessage (status : Nat) (detail : Option Str) : Str :=
  str "HTTP " ++ (Nat.repr status).data ++
    (match detail with
     | some d => str " · " ++ d
     | none => [])

/-- Messages the GENERATE_SUMMARY handler sends for one exchange.
`streamFail reads m` is a body read rejecting after `reads` succeeded: the
whole read loop sits inside the try, so the chunks already forwarded are
followed by the catch branch's single SUMMARY_ERROR (`signal.aborted` is
false there, the timer having been cleared when the headers arrived). -/
def workerRun (parse : Str → Option Json) (u : Upstream) : List WMsg :=
  match u with
  | .networkFail m => [WMsg.error (str "网络请求失败：" ++ m)]
  | .httpFail status detail => [WMsg.error (httpErrorMessage status detail)]
  | .noBody => [WMsg.error (str "无法读取响应流")]
  | .stream reads => runStream parse reads
  | .streamFail reads m =>
    runStreamAborted parse reads ++ [WMsg.error (str "网络请求失败：" ++ m)]

/-! ### Timed view of the exchange (for the 60-second deadline)

The worker arms one timer for 60000 ms before `fetch` and calls
`clearTimeout` directly after `await fetch` settles, i.e. as soon as the
response headers arrive — before any body read. `headerMs` is the time the
fetch takes to settle and `readDelays` the time each body read takes; the
tie at exactly 60000 ms is resolved as the fetch settling first. -/

structure TimedEnv where
  headerMs : Nat
  upstream : Upstream
  readDelays : List Nat

structure TimedOutcome where
  msgs : List WMsg
  abortedUpstream : Bool
  settleMs : Nat

/-- Timed behaviour of the GENERATE_SUMMARY handler: if the timer fires
while the fetch is pending the worker aborts the upstream call and the
rejected fetch lands in the catch branch with `signal.aborted` set
(`SUMMARY_ERROR "请求已取消"`); otherwise the timer is cleared at
`headerMs` and the rest of the exchange runs without any worker-side
deadline. -/
def timedWorker (parse : Str → Option Json) (e : TimedEnv) : TimedOutcome :=
  if 60000 < e.headerMs then
    { msgs := [WMsg.error (str "请求已取消")]
      abortedUpstream := true
      settleMs := 60000 }
  else
    { msgs := workerRun parse e.upstream
      abortedUpstream := false
      settleMs := e.headerMs +
        (match e.upstream with
         | .stream _ => e.readDelays.sum
         | .streamFail _ _ => e.readDelays.sum
         | _ => 0) }

/-- A parse function that rejects every payload (used to instantiate the
claim theorems on concrete inputs). -/
def parseNone : Str → Option Json := fun _ => none

/-- A concrete parsed record carrying `choices[0].delta.content = "He"`. -/
def jsonHe : Json :=
  Json.jobj [(str "choices",
    Json.jarr [Json.jobj [(str "delta",
      Json.jobj [(str "content", Json.jstr (str "He"))])]])]

/-- A parse function recognising exactly the payload `X` (as `jsonHe`). -/
def parseX : Str → Option Json :=
  fun s => if s = str "X" then some jsonHe else none

/-- Terminal protocol messages (`SUMMARY_DONE` / `SUMMARY_ERROR`). -/
def isTerminalMsg (m : WMsg) : Bool :=
  match m with
  | WMsg.done => true
  | WMsg.error _ => true
  | WMsg.chunk _ => false

/-- `SUMMARY_ERROR` messages. -/
def isErrorMsg (m : WMsg) : Bool :=
  match m with
  | WMsg.error _ => true
  | _ => false

/-! ## Preview panel (content script, `previewPanel.ts`)

The presentation state the claims are about. Each async entry point is
split at its `await` points: `renderHtmlStart` is the synchronous body of
`renderHtml` up to `await chrome.runtime.sendMessage(ADD_CSP_BYPASS)`, and
`renderResume` is the continuation after that await, which registers the
frame load listener and assigns `frame.src` without re-checking
`isCurrentRequest` — exactly as the source does. -/

inductive PanelDataState where
  | idle
  | loading
  | ready
  | error
deriving DecidableEq

inductive SummaryState where
  | idle
  | loading
  | ready
  | error
  | blocked
deriving DecidableEq

/-- Contents of the summary area: empty, the model-setup prompt, or
rendered text. -/
inductive SummaryContent where
  | empty : SummaryContent
  | setupPrompt : SummaryContent
  | text : Str → SummaryContent
deriving DecidableEq

structure Panel where
  requestCounter : Nat
  activeRequestId : Option Nat
  modelReady : Bool
  modelNote : Str
  panelDataState : PanelDataState
  titleText : Str
  frameSrc : Option Str
  pendingSummary : Option (Nat × Str × Str)
  pendingRender : List (Nat × Str)
  summaryState : SummaryState
  summaryStatus : Str
  summaryContent : SummaryContent
  lastUrl : Option Str
deriving DecidableEq

/-- `setSummaryState`'s `message || fallbackMessages[state]`. -/
def statusOr (message fallback : Str) : Str :=
  if message = [] then fallback else message

/-- Panel right after the constructor ran (`setSummaryState('idle', ...)`,
then `updateModelConfig` when an initial model snapshot is present: a
non-ready snapshot renders the setup prompt and blocks the summary area, a
ready one changes nothing). -/
def initPanel (modelReady : Bool) (modelNote : Str) : Panel :=
  if modelReady then
    { requestCounter := 0, activeRequestId := none, modelReady := true
      modelNote := modelNote, panelDataState := PanelDataState.idle
      titleText := [], frameSrc := none, pendingSummary := none
      pendingRender := [], summaryState := SummaryState.idle
      summaryStatus := str "等待预览...", summaryContent := SummaryContent.empty
      lastUrl := none }
  else
    { requestCounter := 0, activeRequestId := none, modelReady := false
      modelNote := modelNote, panelDataState := PanelDataState.idle
      titleText := [], frameSrc := none, pendingSummary := none
      pendingRender := [], summaryState := SummaryState.blocked
      summaryStatus := statusOr modelNote (str "尚未配置模型")
      summaryContent := SummaryContent.setupPrompt, lastUrl := none }

/-- `show(url, pointer)`: allocate the next request id, make it active,
cancel summary work, clear the summary area (or render the setup prompt
when no model is ready) and enter the loading presentation; the iframe's
`src` is left untouched. -/
def showPanel (st : Panel) (url : Str) : Panel :=
  { st with
    requestCounter := st.requestCounter + 1
    activeRequestId := some (st.requestCounter + 1)
    lastUrl := some url
    pendingSummary := none
    summaryContent :=
      if st.modelReady then SummaryContent.empty else SummaryContent.setupPrompt
    summaryState :=
      if st.modelReady then SummaryState.loading else SummaryState.blocked
    summaryStatus :=
      if st.modelReady then str "正在加载页面内容..."
      else statusOr st.modelNote (str "尚未配置模型")
    panelDataState := PanelDataState.loading
    titleText := url }

/-- `renderHtml` up to its await: bail out when the request is stale, bail
out when no model is ready (before anything is handed to the iframe),
otherwise record the pending summary input and leave the
`ADD_CSP_BYPASS` round trip in flight. -/
def renderHtmlStart (st : Panel) (requestId : Nat) (html url : Str) : Panel :=
  if st.activeRequestId ≠ some requestId then st
  else if ¬ st.modelReady then st
  else
    { st with
      pendingSummary := some (requestId, html, url)
      summaryState := SummaryState.loading
      summaryStatus := str "等待页面加载完成..."
      pendingRender := st.pendingRender ++ [(requestId, url)] }

/-- `renderHtml` after its await resolves: register the load listener and
assign `frame.src = url` — with no staleness re-check. -/
def renderResume (st : Panel) : Panel :=
  match st.pendingRender with
  | [] => st
  | (_, url) :: rest => { st with pendingRender := rest, frameSrc := some url }

/-- `beginSummaryParsing`: the synchronous part, up to launching the
asynchronous extraction. -/
def beginSummaryParsing (st : Panel) (requestId : Nat) : Panel :=
  match st.pendingSummary with
  | none => st
  | some (rid, html, _) =>
    if rid ≠ requestId then st
    else if ¬ st.modelReady then st
    else if html = [] then
      { st with summaryState := SummaryState.error
                summaryStatus := str "未能获取页面源代码" }
    else
      { st with summaryState := SummaryState.loading
                summaryStatus := str "正在解析页面内容..." }

/-- The `load` listener registered on the iframe for `requestId`. -/
def frameLoad (st : Panel) (requestId : Nat) : Panel :=
  if st.activeRequestId = some requestId then
    beginSummaryParsing { st with panelDataState := PanelDataState.ready }
      requestId
  else st

/-- `showError(requestId, message)`. -/
def showError (st : Panel) (requestId : Nat) (message : Str) : Panel :=
  if st.activeRequestId ≠ some requestId then st
  else
    { st with
      panelDataState := PanelDataState.error
      titleText := message
      pendingSummary := none
      summaryContent :=
        if st.modelReady then SummaryContent.empty else SummaryContent.setupPrompt
      summaryState :=
        if st.modelReady then SummaryState.error else SummaryState.blocked
      summaryStatus :=
        if st.modelReady then statusOr message (str "暂时无法解析该页面")
        else statusOr st.modelNote (str "尚未配置模型") }

/-- `close()`: reset the presentation (the `CLEAR_CSP_BYPASS` message it
sends is part of the rule model below). -/
def closePanel (st : Panel) : Panel :=
  { st with
    panelDataState := PanelDataState.idle
    frameSrc := some []
    pendingSummary := none
    summaryContent :=
      if st.modelReady then SummaryContent.empty else SummaryContent.setupPrompt
    summaryState :=
      if st.modelReady then SummaryState.idle else SummaryState.blocked
    summaryStatus :=
      if st.modelReady then str "等待预览..."
      else statusOr st.modelNote (str "尚未配置模型")
    activeRequestId := none }

inductive PEvent where
  | trigger : Str → PEvent
  | renderStart : Nat → Str → Str → PEvent
  | renderResumeEvt : PEvent
  | frameLoadEvt : Nat → PEvent
  | showErrorEvt : Nat → Str → PEvent
  | closeEvt : PEvent

def pstep (st : Panel) : PEvent → Panel
  | PEvent.trigger url => showPanel st url
  | PEvent.renderStart rid html url => renderHtmlStart st rid html url
  | PEvent.renderResumeEvt => renderResume st
  | PEvent.frameLoadEvt rid => frameLoad st rid
  | PEvent.showErrorEvt rid m => showError st rid m
  | PEvent.closeEvt => closePanel st

def prun (st : Panel) (es : List PEvent) : Panel := es.foldl pstep st

/-! ## CSP bypass rules (background worker)

`activeRuleIds` / `ruleIdCounter` are the worker's module-level variables;
`sessionRules` models the rules actually installed in the browser session.
The Boolean on each event tells whether the corresponding
`chrome.declarativeNetRequest.updateSessionRules` call succeeded. -/

inductive RuleEvt where
  | add : Bool → RuleEvt
  | clearAll : Bool → RuleEvt

structure RuleWorld where
  ruleIdCounter : Nat
  activeRuleIds : List Nat
  sessionRules : List Nat
deriving DecidableEq

/-- `addCspBypassRule` / `clearCspBypassRules`: the counter is incremented
before the install attempt; the id is tracked only after a successful
install; a clear with no tracked ids returns immediately; a successful
clear removes exactly the tracked ids and empties the list; a failed clear
logs and leaves everything unchanged. -/
def ruleStep (w : RuleWorld) : RuleEvt → RuleWorld
  | RuleEvt.add ok =>
    if ok then
      { ruleIdCounter := w.ruleIdCounter + 1
        activeRuleIds := w.activeRuleIds ++ [w.ruleIdCounter]
        sessionRules := w.sessionRules ++ [w.ruleIdCounter] }
    else { w with ruleIdCounter := w.ruleIdCounter + 1 }
  | RuleEvt.clearAll ok =>
    if w.activeRuleIds = [] then w
    else if ok then
      { w with
        activeRuleIds := []
        sessionRules :=
          w.sessionRules.filter fun r => !(w.activeRuleIds.contains r) }
    else w

def initRules : RuleWorld := ⟨1000, [], []⟩

def ruleRun (es : List RuleEvt) : RuleWorld := es.foldl ruleStep initRules

/-! ## Content extraction pipeline (`markdownExtractor.ts` together with
the continuation in `beginSummaryParsing`)

The Defuddle + Turndown two-stage transform is the content-extraction
algorithm the specification excludes; it is passed in as `transform`. -/

inductive ExtractionError where
  | emptyDocument : ExtractionError
deriving DecidableEq

/-- `extractMarkdownFromHtml`: reject a blank document, otherwise apply the
two-stage transform. -/
def extractMarkdownFromHtml (transform : Str → Str) (html : Str) :
    Except ExtractionError Str :=
  if strTrim html = [] then Except.error ExtractionError.emptyDocument
  else Except.ok (transform html)

inductive SummaryOutcome where
  | readyWith : Str → SummaryOutcome
  | noContent : SummaryOutcome
  | parseFailed : SummaryOutcome
deriving DecidableEq

/-- The `.then`/`.catch` continuation of `beginSummaryParsing` for a
still-active request: trim the markdown; non-empty text is rendered as
the successful result, an empty trim lands in the
`未能提取该页面的正文` error path, a rejected extraction in the catch
path. -/
def summaryPipeline (transform : Str → Str) (html : Str) : SummaryOutcome :=
  match extractMarkdownFromHtml transform html with
  | Except.error _ => SummaryOutcome.parseFailed
  | Except.ok markdown =>
    if strTrim markdown = [] then SummaryOutcome.noContent
    else SummaryOutcome.readyWith (strTrim markdown)

/-! ## Document loader (`documentLoader.ts`)

`new URL(...)` is a platform service, passed in as
`parseUrl : Str → Option UrlParts` (`none` models the constructor
throwing). -/

structure UrlParts where
  origin : Str
  pathname : Str

/-- `parsed.pathname.replace(/[^\/]+$/, '')`: drop the trailing run of
non-`'/'` characters. -/
def stripLastSegment (p : Str) : Str :=
  (p.reverse.dropWhile fun c => c ≠ '/').reverse

/-- `computeBaseHref`: origin plus the pathname with its last segment
stripped; the raw input url when the URL constructor throws. -/
def computeBaseHref (parseUrl : Str → Option UrlParts) (url : Str) : Str :=
  match parseUrl url with
  | some parts => parts.origin ++ stripLastSegment parts.pathname
  | none => url

/-- `escapeAttribute`: `value.replace(/"/g, '&quot;')`. -/
def escapeAttribute (v : Str) : Str :=
  v.flatMap fun c => if c = '"' then str "&quot;" else [c]

/-- Length of the `/<head[^>]*>/i` match starting at the head of `s`, when
there is one: the case-insensitive prefix `<head`, the run of non-`'>'`
characters, then `'>'`. -/
def headMatchLen (s : Str) : Option Nat :=
  if (str "<head").isPrefixOf (s.map Char.toLower) then
    if (s.drop 5).drop ((s.drop 5).takeWhile fun c => c ≠ '>').length = []
    then none
    else some (5 + ((s.drop 5).takeWhile fun c => c ≠ '>').length + 1)
  else none

/-- Position and length of the first `/<head[^>]*>/i` match. -/
def findHead : Str → Option (Nat × Nat)
  | [] => none
  | c :: rest =>
    match headMatchLen (c :: rest) with
    | some n => some (0, n)
    | none => (findHead rest).map fun p => (p.1 + 1, p.2)

/-- The injected base-resolution directive. -/
def baseTagFor (parseUrl : Str → Option UrlParts) (url : Str) : Str :=
  str "<base href=\"" ++ escapeAttribute (computeBaseHref parseUrl url) ++
    str "\">"

/-- `rewriteHtml`: insert the directive right after the first `<head...>`
opening tag, else prepend it (followed by a newline) to the document. -/
def rewriteHtml (parseUrl : Str → Option UrlParts) (html url : Str) : Str :=
  match findHead html with
  | some p =>
    html.take (p.1 + p.2) ++ str "\n" ++ baseTagFor parseUrl url ++
      html.drop (p.1 + p.2)
  | none => baseTagFor parseUrl url ++ str "\n" ++ html

/-- `response.finalUrl || url` in `fetchViaBackground` (an empty string is
falsy in JS). -/
def resolveFinalUrl (finalUrl : Option Str) (url : Str) : Str :=
  match finalUrl with
  | some f => if f = [] then url else f
  | none => url

/-- The html a successful background fetch resolves with. -/
def fetchRewrite (parseUrl : Str → Option UrlParts) (body : Str)
    (finalUrl : Option Str) (url : Str) : Str :=
  rewriteHtml parseUrl body (resolveFinalUrl finalUrl url)

/-- Declarative description of a `/<head[^>]*>/i` match of length `n` at
the head of `s`. -/
def HeadMatchAt (s : Str) (n : Nat) : Prop :=
  ∃ pre inner rest, s = pre ++ inner ++ '>' :: rest ∧ pre.length = 5 ∧
    pre.map Char.toLower = str "<head" ∧ (∀ c ∈ inner, c ≠ '>') ∧
    n = 6 + inner.length

/-- The document contains a head opening tag of length `n` at index `i`. -/
def HeadTagAt (html : Str) (i n : Nat) : Prop := HeadMatchAt (html.drop i) n

/-! ## URL normalisation (`utils/url.ts`)

`new URL(...)` is passed in as `parseUrl : Str → Option UrlObj`, where
`UrlObj` carries `protocol` and the `toString()` serialisation. -/

structure UrlObj where
  protocol : Str
  serialized : Str

/-- `/^https?:\/\//i.test(s)`. -/
def hasHttpScheme (s : Str) : Bool :=
  (str "http://").isPrefixOf (s.map Char.toLower) ||
    (str "https://").isPrefixOf (s.map Char.toLower)

/-- `parsed.protocol === 'http:' || parsed.protocol === 'https:'`. -/
def isHttpProtocol (p : Str) : Bool :=
  decide (p = str "http:") || decide (p = str "https:")

/-- The `for (const attempt of attempts)` loop: return the serialisation of
the first attempt that parses with an http(s) protocol. -/
def firstHttpAttempt (parseUrl : Str → Option UrlObj) : List Str → Option Str
  | [] => none
  | a :: rest =>
    match parseUrl a with
    | some u =>
      if isHttpProtocol u.protocol then some u.serialized
      else firstHttpAttempt parseUrl rest
    | none => firstHttpAttempt parseUrl rest

/-- `normalizeUrl`: `none` input models `null`/`undefined`; blank input
yields `null`; an input without an http(s) scheme gets a second attempt
with `https://` prepended. -/
def normalizeUrl (parseUrl : Str → Option UrlObj) (candidate : Option Str) :
    Option Str :=
  match candidate with
  | none => none
  | some c =>
    if strTrim c = [] then none
    else
      firstHttpAttempt parseUrl
        ([strTrim c] ++
          (if hasHttpScheme (strTrim c) then []
           else [str "https://" ++ strTrim c]))

/-- True when the parse result is absent or carries a non-http(s)
protocol. -/
def optionNonHttp (o : Option UrlObj) : Bool :=
  match o with
  | some u => !(isHttpProtocol u.protocol)
  | none => true

/-- A concrete URL constructor for instantiating the claim theorems:
recognises one https address and one javascript: address. -/
def parseDemo : Str → Option UrlObj := fun s =>
  if s = str "https://example.com" then
    some ⟨str "https:", str "https://example.com/"⟩
  else if s = str "javascript:alert(1)" then
    some ⟨str "javascript:", str "javascript:alert(1)"⟩
  else none

/-! ### Basic facts about `splitLines` -/

theorem splitLines_ne_nil (s : Str) : splitLines s ≠ [] := by
  cases s with
  | nil => simp [splitLines]
  | cons c cs =>
    simp only [splitLines]
    by_cases h : c = '\n'
    · simp [h]
    · simp only [h, if_false]
      cases hs : splitLines cs <;> simp

theorem splitLines_no_nl (s : Str) (h : '\n' ∉ s) : splitLines s = [s] := by
  induction s with
  | nil => rfl
  | cons c cs ih =>
    have hc : c ≠ '\n' := fun hc => h (hc ▸ List.mem_cons_self c cs)
    have hcs : '\n' ∉ cs := fun hm => h (List.mem_cons_of_mem c hm)
    simp only [splitLines, hc, if_false, ih hcs]

theorem splitLines_append_nl (buf cs : Str) (h : '\n' ∉ buf) :
    splitLines (buf ++ '\n' :: cs) = buf :: splitLines cs := by
  induction buf with
  | nil => simp [splitLines]
  | cons c b ih =>
    have hc : c ≠ '\n' := fun hc => h (hc ▸ List.mem_cons_self c b)
    have hb : '\n' ∉ b := fun hm => h (List.mem_cons_of_mem c hm)
    rw [List.cons_append]
    simp only [splitLines, hc, if_false]
    rw [ih hb]

/-! ### The split-based read step agrees with the char-by-char machine -/

theorem feed_nil (parse : Str → Option Json) (st : Str × List WMsg) :
    feed parse st [] = st := rfl

theorem feed_cons (parse : Str → Option Json) (st : Str × List WMsg)
    (c : Char) (cs : Str) :
    feed parse st (c :: cs) = feed parse (feedChar parse st c) cs := rfl

theorem feedChar_nl (parse : Str → Option Json) (b : Str) (ms : List WMsg) :
    feedChar parse (b, ms) '\n' = ([], ms ++ processLine parse b) := rfl

theorem feedChar_other (parse : Str → Option Json) (b : Str) (ms : List WMsg)
    (c : Char) (hc : c ≠ '\n') :
    feedChar parse (b, ms) c = (b ++ [c], ms) := by
  simp [feedChar, hc]

theorem feed_msgs (parse : Str → Option Json) (d : Str) :
    ∀ b ms, feed parse (b, ms) d =
      ((feed parse (b, []) d).1, ms ++ (feed parse (b, []) d).2) := by
  induction d with
  | nil => intro b ms; simp [feed_nil]
  | cons c cs ih =>
    intro b ms
    by_cases hc : c = '\n'
    · subst hc
      rw [feed_cons, feed_cons, feedChar_nl, feedChar_nl]
      rw [ih [] (ms ++ processLine parse b), ih [] ([] ++ processLine parse b)]
      simp [List.append_assoc]
    · rw [feed_cons, feed_cons, feedChar_other parse b ms c hc,
        feedChar_other parse b [] c hc]
      rw [ih (b ++ [c]) ms, ih (b ++ [c]) []]

theorem feed_buffer_no_nl (parse : Str → Option Json) (d : Str) :
    ∀ b ms, '\n' ∉ b → '\n' ∉ (feed parse (b, ms) d).1 := by
  induction d with
  | nil => intro b ms h; exact h
  | cons c cs ih =>
    intro b ms h
    by_cases hc : c = '\n'
    · subst hc
      rw [feed_cons, feedChar_nl]
      exact ih [] _ (by simp)
    · rw [feed_cons, feedChar_other parse b ms c hc]
      refine ih (b ++ [c]) ms ?_
      intro hm
      rcases List.mem_append.mp hm with h1 | h2
      · exact h h1
      · exact hc (List.mem_singleton.mp h2).symm

theorem feed_append (parse : Str → Option Json) (st : Str × List WMsg)
    (d1 d2 : Str) : feed parse st (d1 ++ d2) = feed parse (feed parse st d1) d2 :=
  List.foldl_append _ _ _ _

theorem getLastD_cons_of_ne_nil {α : Type} (x : α) (l : List α) (d : α)
    (h : l ≠ []) : (x :: l).getLastD d = l.getLastD d := by
  cases l with
  | nil => exact absurd rfl h
  | cons y ys => rfl

theorem dropLast_cons_of_ne_nil {α : Type} (x : α) (l : List α)
    (h : l ≠ []) : (x :: l).dropLast = x :: l.dropLast := by
  cases l with
  | nil => exact absurd rfl h
  | cons y ys => rfl

theorem processRead_eq_feed (parse : Str → Option Json) (d : Str) :
    ∀ buf, '\n' ∉ buf → processRead parse buf d = feed parse (buf, []) d := by
  induction d with
  | nil =>
    intro buf h
    simp only [processRead, List.append_nil, splitLines_no_nl buf h]
    rfl
  | cons c cs ih =>
    intro buf h
    by_cases hc : c = '\n'
    · subst hc
      have hsplit := splitLines_append_nl buf cs h
      have hne := splitLines_ne_nil cs
      simp only [processRead, hsplit,
        getLastD_cons_of_ne_nil _ _ _ hne, dropLast_cons_of_ne_nil _ _ hne,
        List.flatMap_cons]
      have hplain : processRead parse [] cs = feed parse ([], []) cs :=
        ih [] (by simp)
      simp only [processRead, List.nil_append] at hplain
      rw [feed_cons, feedChar_nl]
      rw [feed_msgs parse cs [] ([] ++ processLine parse buf)]
      rw [← hplain]
      simp [processRead]
    · have hbuf : '\n' ∉ buf ++ [c] := by
        intro hm
        rcases List.mem_append.mp hm with h1 | h2
        · exact h h1
        · exact hc (List.mem_singleton.mp h2).symm
      have hsplit : buf ++ c :: cs = (buf ++ [c]) ++ cs := by simp
      rw [feed_cons, feedChar_other parse buf [] c hc, ← ih (buf ++ [c]) hbuf]
      simp only [processRead]
      rw [hsplit]

theorem streamLoop_eq_feed (parse : Str → Option Json) (reads : List Str) :
    ∀ buf ms, '\n' ∉ buf →
      streamLoop parse (buf, ms) reads = feed parse (buf, ms) reads.flatten := by
  induction reads with
  | nil => intro buf ms _; rfl
  | cons d ds ih =>
    intro buf ms h
    simp only [streamLoop, processRead_eq_feed parse d buf h, List.flatten_cons]
    rw [feed_append]
    have hb' : '\n' ∉ (feed parse (buf, []) d).1 := feed_buffer_no_nl _ _ _ _ h
    rw [ih _ _ hb']
    congr 1
    rw [feed_msgs parse d buf ms]

/-- The stream output only depends on the concatenation of the network
reads: any partial trailing line is buffered until more data arrives and
never parsed prematurely. -/
theorem runStream_flatten (parse : Str → Option Json) (reads : List Str) :
    runStream parse reads = runStream parse [reads.flatten] := by
  simp only [runStream]
  rw [streamLoop_eq_feed parse reads [] [] (by simp)]
  rw [streamLoop_eq_feed parse [reads.flatten] [] [] (by simp)]
  simp

/-! ### Shape of the messages one record can produce -/

theorem processLine_cases (parse : Str → Option Json) (l : Str) :
    processLine parse l = [] ∨ processLine parse l = [WMsg.done] ∨
      ∃ c j, processLine parse l = [WMsg.chunk c] ∧
        parse ((strTrim l).drop 6) = some j ∧ deltaContent j = some c ∧
        c ≠ [] := by
  unfold processLine
  by_cases h1 : strTrim l = []
  · simp [h1]
  · simp only [h1, if_false]
    by_cases h2 : strTrim l = str "data: [DONE]"
    · simp [h2]
    · simp only [h2, if_false]
      by_cases h3 : (str "data: ").isPrefixOf (strTrim l) = true
      · simp only [h3, if_true]
        cases hp : parse ((strTrim l).drop 6) with
        | none => simp
        | some j =>
          cases hd : deltaContent j with
          | none => simp [hd]
          | some c =>
            by_cases hcne : c = []
            · simp [hd, hcne]
            · refine Or.inr (Or.inr ⟨c, j, ?_, rfl, hd, hcne⟩)
              simp [hd, hcne]
      · simp only [Bool.not_eq_true] at h3
        simp [h3]

theorem processLine_length_le_one (parse : Str → Option Json) (l : Str) :
    (processLine parse l).length ≤ 1 := by
  rcases processLine_cases parse l with h | h | ⟨c, j, h, _⟩ <;> simp [h]

theorem processLine_done_record (parse : Str → Option Json) :
    processLine parse (str "data: [DONE]") = [WMsg.done] := by
  have ht : strTrim (str "data: [DONE]") = str "data: [DONE]" := by decide
  unfold processLine
  rw [ht]
  simp [str]

theorem processLine_eq_nil_of_unparsed (parse : Str → Option Json) (l : Str)
    (hdone : strTrim l ≠ str "data: [DONE]")
    (hp : parse ((strTrim l).drop 6) = none) :
    processLine parse l = [] := by
  unfold processLine
  by_cases h1 : strTrim l = []
  · simp [h1]
  · simp only [h1, if_false, hdone, if_false]
    by_cases h3 : (str "data: ").isPrefixOf (strTrim l) = true
    · simp [h3, hp]
    · simp only [Bool.not_eq_true] at h3
      simp [h3]

theorem processLine_interpreted_shapes (parse : Str → Option Json) (l : Str)
    (h : processLine parse l ≠ []) :
    strTrim l = str "data: [DONE]" ∨
      (str "data: ").isPrefixOf (strTrim l) = true := by
  by_contra hcon
  push_neg at hcon
  apply h
  unfold processLine
  by_cases h1 : strTrim l = []
  · simp [h1]
  · simp only [h1, if_false, hcon.1, if_false]
    simp [hcon.2]

theorem error_not_mem_processLine (parse : Str → Option Json) (l : Str)
    (e : Str) : WMsg.error e ∉ processLine parse l := by
  rcases processLine_cases parse l with h | h | ⟨c, j, h, _⟩ <;> simp [h]

theorem error_not_mem_flushBuffer (parse : Str → Option Json) (b : Str)
    (e : Str) : WMsg.error e ∉ flushBuffer parse b := by
  unfold flushBuffer
  by_cases h1 : strTrim b = [] ∨ strTrim b = str "data: [DONE]"
  · simp [h1]
  · simp only [h1, if_false]
    by_cases h3 : (str "data: ").isPrefixOf (strTrim b) = true
    · simp only [h3, if_true]
      cases hp : parse ((strTrim b).drop 6) with
      | none => simp
      | some j =>
        cases hd : deltaContent j with
        | none => simp [hd]
        | some c =>
          by_cases hcne : c = []
          · simp [hd, hcne]
          · simp [hd, hcne]
    · simp only [Bool.not_eq_true] at h3
      simp [h3]

theorem accumText_aux (ms : List WMsg) :
    ∀ acc, ms.foldl
        (fun acc m =>
          match m with
          | WMsg.chunk c => acc ++ c
          | _ => acc) acc = acc ++ (chunksOf ms).flatten := by
  induction ms with
  | nil => intro acc; simp [chunksOf]
  | cons m ms ih =>
    intro acc
    cases m with
    | chunk c => simp [chunksOf, List.filterMap_cons, ih, List.append_assoc]
    | done => simp [chunksOf, List.filterMap_cons, ih]
    | error e => simp [chunksOf, List.filterMap_cons, ih]

/-- The accumulated text is the in-order concatenation of the chunk
payloads. -/
theorem accumText_eq_flatten (ms : List WMsg) :
    accumText ms = (chunksOf ms).flatten := by
  simpa using accumText_aux ms []

theorem chunksOf_append (a b : List WMsg) :
    chunksOf (a ++ b) = chunksOf a ++ chunksOf b :=
  List.filterMap_append _ _ _

theorem chunksOf_flatMap (l : List Str) (f : Str → List WMsg) :
    chunksOf (l.flatMap f) = l.flatMap fun x => chunksOf (f x) := by
  induction l with
  | nil => rfl
  | cons x xs ih => simp [List.flatMap_cons, chunksOf_append, ih]

/-- The final-buffer handling yields exactly the chunks the in-loop record
handling would have yielded for that line (they differ only on the
`data: [DONE]` record, which yields no chunk either way). -/
theorem chunksOf_flushBuffer (parse : Str → Option Json) (b : Str) :
    chunksOf (flushBuffer parse b) = chunksOf (processLine parse b) := by
  unfold flushBuffer processLine
  by_cases h1 : strTrim b = []
  · simp [h1]
  · by_cases h2 : strTrim b = str "data: [DONE]"
    · simp [h1, h2, chunksOf]
    · have h12 : ¬(strTrim b = [] ∨ strTrim b = str "data: [DONE]") := by
        simp [h1, h2]
      simp only [h12, if_false, h1, h2]
      simp

theorem dropLast_append_getLastD {α : Type} (l : List α) (d : α)
    (h : l ≠ []) : l.dropLast ++ [l.getLastD d] = l := by
  induction l with
  | nil => exact absurd rfl h
  | cons x xs ih =>
    cases hx : xs with
    | nil => rfl
    | cons y ys =>
      rw [← hx]
      have hxs : xs ≠ [] := by simp [hx]
      rw [dropLast_cons_of_ne_nil x xs hxs, getLastD_cons_of_ne_nil x xs d hxs,
        List.cons_append, ih hxs]

theorem runStream_single (parse : Str → Option Json) (x : Str) :
    runStream parse [x] =
      (splitLines x).dropLast.flatMap (processLine parse) ++
        flushBuffer parse ((splitLines x).getLastD []) ++ [WMsg.done] := by
  simp [runStream, streamLoop, processRead]

/-- The chunks of a whole stream are the chunks of the complete lines of the
concatenated body, in order. -/
theorem chunksOf_runStream (parse : Str → Option Json) (reads : List Str) :
    chunksOf (runStream parse reads) =
      (splitLines reads.flatten).flatMap
        fun l => chunksOf (processLine parse l) := by
  rw [runStream_flatten, runStream_single]
  rw [chunksOf_append, chunksOf_append, chunksOf_flatMap, chunksOf_flushBuffer]
  have hlast : chunksOf [WMsg.done] = [] := rfl
  rw [hlast, List.append_nil]
  conv_rhs =>
    rw [← dropLast_append_getLastD (splitLines reads.flatten) []
      (splitLines_ne_nil _)]
  rw [List.flatMap_append]
  simp

theorem error_not_mem_runStream (parse : Str → Option Json)
    (reads : List Str) (e : Str) : WMsg.error e ∉ runStream parse reads := by
  rw [runStream_flatten, runStream_single]
  intro hmem
  rcases List.mem_append.mp hmem with hmem | hdone
  · rcases List.mem_append.mp hmem with hloop | hflush
    · rcases List.mem_flatMap.mp hloop with ⟨l, _, hl⟩
      exact error_not_mem_processLine parse l e hl
    · exact error_not_mem_flushBuffer parse _ e hflush
  · simp at hdone

theorem runStream_getLast (parse : Str → Option Json) (reads : List Str) :
    (runStream parse reads).getLast? = some WMsg.done := by
  simp only [runStream]
  exact List.getLast?_concat _

/-! ### Helper facts about chunk membership -/

theorem mem_chunksOf (ms : List WMsg) (c : Str) :
    c ∈ chunksOf ms ↔ WMsg.chunk c ∈ ms := by
  constructor
  · intro h
    rcases List.mem_filterMap.mp h with ⟨m, hm, hf⟩
    cases m with
    | chunk d =>
      have : d = c := by simpa using hf
      exact this ▸ hm
    | done => simp at hf
    | error e => simp at hf
  · intro h
    exact List.mem_filterMap.mpr ⟨WMsg.chunk c, h, rfl⟩

theorem chunk_mem_processLine (parse : Str → Option Json) (l c : Str)
    (h : WMsg.chunk c ∈ processLine parse l) :
    ∃ j, parse ((strTrim l).drop 6) = some j ∧ deltaContent j = some c ∧
      c ≠ [] := by
  rcases processLine_cases parse l with heq | heq | ⟨c', j, heq, hp, hd, hne⟩
  · rw [heq] at h; simp at h
  · rw [heq] at h; simp at h
  · rw [heq] at h
    have : c = c' := by simpa using h
    subst this
    exact ⟨j, hp, hd, hne⟩

/-! ## Claim theorems -/

/-- C3: the worker's SSE parser splits the accumulated body on newlines and
buffers any partial trailing line until more data arrives (the emitted
messages depend only on the concatenation of the reads, and a read with no
newline merely extends the buffer); a record is interpreted only when,
after trimming, it is the literal `data: [DONE]` (mapped to SUMMARY_DONE)
or carries the `data: ` marker; each record yields at most one message and
any chunk it yields is a `choices[0].delta.content` value of its parsed
payload; a record whose payload is malformed JSON is silently skipped and
the surrounding records are still processed. -/
theorem C3_sse_parsing (parse : Str → Option Json) :
    (∀ reads, runStream parse reads = runStream parse [reads.flatten]) ∧
    (∀ buf data, '\n' ∉ buf ++ data →
      processRead parse buf data = (buf ++ data, [])) ∧
    processLine parse (str "data: [DONE]") = [WMsg.done] ∧
    (∀ l, (processLine parse l).length ≤ 1) ∧
    (∀ l, processLine parse l ≠ [] →
      strTrim l = str "data: [DONE]" ∨
        (str "data: ").isPrefixOf (strTrim l) = true) ∧
    (∀ l c, WMsg.chunk c ∈ processLine parse l →
      ∃ j, parse ((strTrim l).drop 6) = some j ∧ deltaContent j = some c ∧
        c ≠ []) ∧
    (∀ l, strTrim l ≠ str "data: [DONE]" →
      parse ((strTrim l).drop 6) = none → processLine parse l = []) ∧
    (∀ pre post bad, processLine parse bad = [] →
      (pre ++ [bad] ++ post).flatMap (processLine parse) =
        (pre ++ post).flatMap (processLine parse)) := by
  refine ⟨runStream_flatten parse, ?_, processLine_done_record parse,
    processLine_length_le_one parse, processLine_interpreted_shapes parse,
    chunk_mem_processLine parse, processLine_eq_nil_of_unparsed parse, ?_⟩
  · intro buf data h
    simp [processRead, splitLines_no_nl _ h]
  · intro pre post bad hbad
    simp [List.flatMap_append, hbad]

/-- C3 witness: the theorem applied at concrete inputs — a read without a
newline only extends the buffer; the malformed record `data: not-json` is
skipped; a record produces at most one message. -/
theorem C3_sse_parsing_witness :
    processRead parseNone (str "data: [D") (str "ONE]") =
      (str "data: [DONE]", []) ∧
    processLine parseNone (str "data: not-json") = [] ∧
    (processLine parseNone (str "data: x")).length ≤ 1 := by
  refine ⟨?_, ?_, ?_⟩
  · have h := (C3_sse_parsing parseNone).2.1 (str "data: [D") (str "ONE]")
      (by decide)
    simpa using h
  · exact (C3_sse_parsing parseNone).2.2.2.2.2.2.1 (str "data: not-json")
      (by decide) rfl
  · exact (C3_sse_parsing parseNone).2.2.2.1 (str "data: x")

/-- C9: every chunk the worker emits is a non-empty string equal to a
`choices[0].delta.content` value of a successfully parsed record; the
stream's chunk sequence is exactly the per-line chunk sequence of the
concatenated body, in order; and the requester's accumulated text is the
in-order concatenation of the chunk payloads. -/
theorem C9_chunk_integrity (parse : Str → Option Json) (reads : List Str) :
    (∀ c, WMsg.chunk c ∈ runStream parse reads →
      c ≠ [] ∧ ∃ l ∈ splitLines reads.flatten, ∃ j,
        parse ((strTrim l).drop 6) = some j ∧ deltaContent j = some c) ∧
    chunksOf (runStream parse reads) =
      (splitLines reads.flatten).flatMap
        (fun l => chunksOf (processLine parse l)) ∧
    accumText (runStream parse reads) =
      (chunksOf (runStream parse reads)).flatten := by
  refine ⟨?_, chunksOf_runStream parse reads, accumText_eq_flatten _⟩
  intro c hc
  have hc' : c ∈ chunksOf (runStream parse reads) :=
    (mem_chunksOf _ _).mpr hc
  rw [chunksOf_runStream] at hc'
  rcases List.mem_flatMap.mp hc' with ⟨l, hl, hcl⟩
  have hmem : WMsg.chunk c ∈ processLine parse l := (mem_chunksOf _ _).mp hcl
  rcases chunk_mem_processLine parse l c hmem with ⟨j, hp, hd, hne⟩
  exact ⟨hne, l, hl, j, hp, hd⟩

/-- C9 witness: the theorem applied to a concrete stream producing the
chunk `He` from the record `data: X`. -/
theorem C9_chunk_integrity_witness :
    str "He" ≠ [] ∧ ∃ l ∈ splitLines (List.flatten [str "data: X\n"]),
      ∃ j, parseX ((strTrim l).drop 6) = some j ∧
        deltaContent j = some (str "He") :=
  (C9_chunk_integrity parseX [str "data: X\n"]).1 (str "He") (by decide)

theorem error_not_mem_runStreamAborted (parse : Str → Option Json)
    (reads : List Str) (e : Str) :
    WMsg.error e ∉ runStreamAborted parse reads := by
  intro h
  apply error_not_mem_runStream parse reads e
  simp only [runStreamAborted] at h
  simp only [runStream]
  exact List.mem_append.mpr (Or.inl (List.mem_append.mpr (Or.inl h)))

theorem filter_isErrorMsg_eq_nil (ms : List WMsg)
    (h : ∀ e, WMsg.error e ∉ ms) : ms.filter isErrorMsg = [] := by
  induction ms with
  | nil => rfl
  | cons m rest ih =>
    have hrest : ∀ e, WMsg.error e ∉ rest :=
      fun e he => h e (List.mem_cons_of_mem m he)
    cases m with
    | chunk c => simp [List.filter_cons, isErrorMsg, ih hrest]
    | done => simp [List.filter_cons, isErrorMsg, ih hrest]
    | error e => exact absurd (List.mem_cons_self _ _) (h e)

theorem singleton_error_terminal (e' : Str) :
    (∃ m, ([WMsg.error e'] : List WMsg).getLast? = some m ∧
      isTerminalMsg m = true) ∧
    (∀ e, WMsg.error e ∈ ([WMsg.error e'] : List WMsg) →
      ([WMsg.error e'] : List WMsg).getLast? = some (WMsg.error e) ∧
      (([WMsg.error e'] : List WMsg).filter isErrorMsg).length = 1) := by
  constructor
  · exact ⟨WMsg.error e', rfl, rfl⟩
  · intro e he
    simp only [List.mem_singleton] at he
    have heq : e = e' := by injection he
    subst heq
    exact ⟨rfl, rfl⟩

/-- C2 (amended): after the `{ok:true}` acknowledgement the worker's
message sequence is non-empty and ends with a terminal message; any
SUMMARY_ERROR it contains is the exchange's final message and its only
error — pre-stream failures (network error, non-2xx response, unreadable
body) send it alone, and a body read rejecting mid-stream sends it after
the chunks already forwarded; a stream that completes ends with the
unconditional SUMMARY_DONE and contains no SUMMARY_ERROR — but a
`data: [DONE]` record additionally produces its own immediate
SUMMARY_DONE, so duplicate SUMMARY_DONE messages, and further chunks after
a SUMMARY_DONE, do occur. -/
theorem C2_terminal_messages (parse : Str → Option Json) (u : Upstream) :
    (∃ m, (workerRun parse u).getLast? = some m ∧ isTerminalMsg m = true) ∧
    (∀ e, WMsg.error e ∈ workerRun parse u →
      (workerRun parse u).getLast? = some (WMsg.error e) ∧
      ((workerRun parse u).filter isErrorMsg).length = 1) ∧
    (∀ reads, u = Upstream.stream reads →
      (workerRun parse u).getLast? = some WMsg.done ∧
      ∀ e, WMsg.error e ∉ workerRun parse u) ∧
    (∀ reads msg, u = Upstream.streamFail reads msg →
      workerRun parse u =
        runStreamAborted parse reads ++
          [WMsg.error (str "网络请求失败：" ++ msg)] ∧
      ∀ e, WMsg.error e ∉ runStreamAborted parse reads) := by
  cases u with
  | networkFail m =>
    obtain ⟨ha, hb⟩ := singleton_error_terminal (str "网络请求失败：" ++ m)
    exact ⟨ha, hb, fun reads h => absurd h (by simp),
      fun reads msg h => absurd h (by simp)⟩
  | httpFail s d =>
    obtain ⟨ha, hb⟩ := singleton_error_terminal (httpErrorMessage s d)
    exact ⟨ha, hb, fun reads h => absurd h (by simp),
      fun reads msg h => absurd h (by simp)⟩
  | noBody =>
    obtain ⟨ha, hb⟩ := singleton_error_terminal (str "无法读取响应流")
    exact ⟨ha, hb, fun reads h => absurd h (by simp),
      fun reads msg h => absurd h (by simp)⟩
  | stream reads =>
    refine ⟨⟨WMsg.done, runStream_getLast parse reads, rfl⟩, ?_, ?_, ?_⟩
    · intro e he
      exact absurd he (error_not_mem_runStream parse reads e)
    · intro reads' h
      exact ⟨runStream_getLast parse reads,
        fun e => error_not_mem_runStream parse reads e⟩
    · intro reads' msg h
      exact absurd h (by simp)
  | streamFail reads m =>
    have hlast :
        (runStreamAborted parse reads ++
          [WMsg.error (str "网络请求失败：" ++ m)]).getLast? =
          some (WMsg.error (str "网络请求失败：" ++ m)) :=
      List.getLast?_concat _
    refine ⟨⟨WMsg.error (str "网络请求失败：" ++ m), hlast, rfl⟩, ?_, ?_, ?_⟩
    · intro e he
      rcases List.mem_append.mp he with hab | hone
      · exact absurd hab (error_not_mem_runStreamAborted parse reads e)
      · simp only [List.mem_singleton] at hone
        have heq : e = str "网络请求失败：" ++ m := by injection hone
        subst heq
        refine ⟨hlast, ?_⟩
        have hwr : workerRun parse (Upstream.streamFail reads m) =
            runStreamAborted parse reads ++
              [WMsg.error (str "网络请求失败：" ++ m)] := rfl
        rw [hwr, List.filter_append,
          filter_isErrorMsg_eq_nil _
            (fun e' => error_not_mem_runStreamAborted parse reads e')]
        rfl
    · intro reads' h
      exact absurd h (by simp)
    · intro reads' msg' h
      injection h with h1 h2
      rw [← h1, ← h2]
      exact ⟨rfl, fun e => error_not_mem_runStreamAborted parse reads e⟩

/-- C2 witness: the theorem applied at concrete exchanges — a completed
stream ends with SUMMARY_DONE, and a mid-stream read failure after a
delivered chunk ends with the network-failure SUMMARY_ERROR as the final
message. -/
theorem C2_terminal_messages_witness :
    (workerRun parseX (Upstream.stream [str "data: [DONE]\n"])).getLast? =
      some WMsg.done ∧
    (workerRun parseX
        (Upstream.streamFail [str "data: X\n"] (str "net"))).getLast? =
      some (WMsg.error (str "网络请求失败：" ++ str "net")) := by
  constructor
  · exact ((C2_terminal_messages parseX
      (Upstream.stream [str "data: [DONE]\n"])).2.2.1
        [str "data: [DONE]\n"] rfl).1
  · exact ((C2_terminal_messages parseX
      (Upstream.streamFail [str "data: X\n"] (str "net"))).2.1
        (str "网络请求失败：" ++ str "net") (by decide)).1

/-- C2 counterexample: the standard stream body consisting of the single
record `data: [DONE]` makes the worker send SUMMARY_DONE twice — once for
the record and once unconditionally at stream end — so the exchange does
not consist of chunks followed by exactly one terminal message. -/
theorem C2_counterexample :
    workerRun parseNone (Upstream.stream [str "data: [DONE]\n"]) =
      [WMsg.done, WMsg.done] ∧
    ((workerRun parseNone
        (Upstream.stream [str "data: [DONE]\n"])).filter isTerminalMsg).length
      ≠ 1 := by
  constructor
  · decide
  · decide

/-- C4 (amended): the worker's 60-second deadline covers only the phase up
to the upstream response settling: if the fetch has not settled within 60
seconds the worker aborts the upstream call and emits exactly one
SUMMARY_ERROR; once the response has settled the timer is cleared, the
upstream call is never aborted by the worker, and the emitted messages do
not depend on how long the body reads take (the streaming phase has no
worker-side deadline — the requester enforces its own 60-second timeout
for the whole exchange). -/
theorem C4_stream_deadline (parse : Str → Option Json) (e : TimedEnv) :
    (60000 < e.headerMs →
      (timedWorker parse e).msgs = [WMsg.error (str "请求已取消")] ∧
      (timedWorker parse e).abortedUpstream = true) ∧
    (e.headerMs ≤ 60000 →
      (timedWorker parse e).abortedUpstream = false ∧
      ∀ d, (timedWorker parse { e with readDelays := d }).msgs =
        (timedWorker parse e).msgs) := by
  constructor
  · intro h
    constructor <;> simp [timedWorker, h]
  · intro h
    have h' : ¬ 60000 < e.headerMs := not_lt.mpr h
    refine ⟨by simp [timedWorker, h'], fun d => by simp [timedWorker, h']⟩

/-- C4 witness: the theorem applied at concrete environments — a fetch
pending for 70 s is aborted with the cancellation error; a fetch settling
after 1 s leaves the upstream unaborted. -/
theorem C4_stream_deadline_witness :
    (timedWorker parseNone
        { headerMs := 70000, upstream := Upstream.noBody,
          readDelays := [] }).msgs = [WMsg.error (str "请求已取消")] ∧
    (timedWorker parseNone
        { headerMs := 1000, upstream := Upstream.stream [str "data: [DONE]\n"],
          readDelays := [] }).abortedUpstream = false := by
  constructor
  · exact ((C4_stream_deadline parseNone
      { headerMs := 70000, upstream := Upstream.noBody, readDelays := [] }).1
        (by norm_num)).1
  · exact ((C4_stream_deadline parseNone
      { headerMs := 1000, upstream := Upstream.stream [str "data: [DONE]\n"],
        readDelays := [] }).2 (by norm_num)).1

/-- C4 counterexample: headers arrive after 1 s, the single body read takes
10⁹ ms, so the exchange settles far beyond 60 s — yet the worker neither
aborts the upstream call nor emits any SUMMARY_ERROR, because its timer
was already cleared when the headers arrived. -/
theorem C4_counterexample :
    60000 < (timedWorker parseNone
      { headerMs := 1000, upstream := Upstream.stream [str "data: [DONE]\n"],
        readDelays := [1000000000] }).settleMs ∧
    (timedWorker parseNone
      { headerMs := 1000, upstream := Upstream.stream [str "data: [DONE]\n"],
        readDelays := [1000000000] }).abortedUpstream = false ∧
    ∀ e, WMsg.error e ∉ (timedWorker parseNone
      { headerMs := 1000, upstream := Upstream.stream [str "data: [DONE]\n"],
        readDelays := [1000000000] }).msgs := by
  refine ⟨by norm_num [timedWorker], by norm_num [timedWorker], ?_⟩
  intro e
  have hmsgs : (timedWorker parseNone
      { headerMs := 1000, upstream := Upstream.stream [str "data: [DONE]\n"],
        readDelays := [1000000000] }).msgs =
      runStream parseNone [str "data: [DONE]\n"] := by
    norm_num [timedWorker, workerRun]
  rw [hmsgs]
  exact error_not_mem_runStream parseNone _ e

/-- C7 (amended): an id is tracked only when its installation call
succeeded; a clear with zero tracked ids is a no-op; a successful clearAll
removes exactly the tracked ids from the session and empties the tracked
list; a failed clearAll throws nothing and leaves both the tracked list and
the session unchanged; and along every event sequence the tracked ids are
distinct ids of rules actually installed since the last successful clear
(in particular every tracked id is installed in the session). -/
theorem ruleStep_clear_fail (w : RuleWorld) :
    ruleStep w (RuleEvt.clearAll false) = w := by
  simp only [ruleStep]
  by_cases hempty : w.activeRuleIds = [] <;> simp [hempty]

theorem ruleStep_clear_empty (w : RuleWorld) (ok : Bool)
    (h : w.activeRuleIds = []) : ruleStep w (RuleEvt.clearAll ok) = w := by
  simp [ruleStep, h]

theorem C7_rule_tracking :
    (∀ w ok, w.activeRuleIds = [] → ruleStep w (RuleEvt.clearAll ok) = w) ∧
    (∀ w, (ruleStep w (RuleEvt.add false)).activeRuleIds = w.activeRuleIds ∧
      (ruleStep w (RuleEvt.add false)).sessionRules = w.sessionRules) ∧
    (∀ w, (ruleStep w (RuleEvt.add true)).activeRuleIds =
        w.activeRuleIds ++ [w.ruleIdCounter] ∧
      (ruleStep w (RuleEvt.add true)).sessionRules =
        w.sessionRules ++ [w.ruleIdCounter]) ∧
    (∀ w, (ruleStep w (RuleEvt.clearAll true)).activeRuleIds = [] ∧
      (ruleStep w (RuleEvt.clearAll true)).sessionRules =
        w.sessionRules.filter fun r => !(w.activeRuleIds.contains r)) ∧
    (∀ w, (ruleStep w (RuleEvt.clearAll false)).activeRuleIds =
        w.activeRuleIds ∧
      (ruleStep w (RuleEvt.clearAll false)).sessionRules = w.sessionRules) ∧
    (∀ es, (∀ r ∈ (ruleRun es).activeRuleIds, r ∈ (ruleRun es).sessionRules) ∧
      (ruleRun es).activeRuleIds.Nodup) := by
  have hstep : ∀ (w : RuleWorld) (evt : RuleEvt),
      ((∀ r ∈ w.activeRuleIds, r ∈ w.sessionRules) ∧
        (∀ r ∈ w.activeRuleIds, r < w.ruleIdCounter) ∧
        w.activeRuleIds.Nodup) →
      ((∀ r ∈ (ruleStep w evt).activeRuleIds,
          r ∈ (ruleStep w evt).sessionRules) ∧
        (∀ r ∈ (ruleStep w evt).activeRuleIds,
          r < (ruleStep w evt).ruleIdCounter) ∧
        (ruleStep w evt).activeRuleIds.Nodup) := by
    intro w evt ⟨h1, h2, h3⟩
    cases evt with
    | add ok =>
      cases ok with
      | false =>
        refine ⟨h1, fun r hr => ?_, h3⟩
        exact Nat.lt_succ_of_lt (h2 r hr)
      | true =>
        refine ⟨?_, ?_, ?_⟩
        · intro r hr
          rcases List.mem_append.mp hr with h | h
          · exact List.mem_append.mpr (Or.inl (h1 r h))
          · exact List.mem_append.mpr (Or.inr h)
        · intro r hr
          rcases List.mem_append.mp hr with h | h
          · exact Nat.lt_succ_of_lt (h2 r h)
          · simp only [List.mem_singleton] at h
            exact h ▸ Nat.lt_succ_self _
        · refine List.Nodup.append h3 (List.nodup_singleton _) ?_
          intro r hr hr'
          simp only [List.mem_singleton] at hr'
          exact absurd (h2 r hr) (hr' ▸ Nat.lt_irrefl _)
    | clearAll ok =>
      by_cases hempty : w.activeRuleIds = []
      · rw [ruleStep_clear_empty w ok hempty]
        exact ⟨h1, h2, h3⟩
      · cases ok with
        | true => simp [ruleStep, hempty]
        | false =>
          rw [ruleStep_clear_fail w]
          exact ⟨h1, h2, h3⟩
  refine ⟨?_, ?_, ?_, ?_, ?_, ?_⟩
  · intro w ok h
    exact ruleStep_clear_empty w ok h
  · intro w
    exact ⟨rfl, rfl⟩
  · intro w
    exact ⟨rfl, rfl⟩
  · intro w
    by_cases hempty : w.activeRuleIds = []
    · rw [ruleStep_clear_empty w true hempty]
      refine ⟨hempty, ?_⟩
      rw [hempty]
      simp
    · constructor
      · simp [ruleStep, hempty]
      · simp [ruleStep, hempty]
  · intro w
    rw [ruleStep_clear_fail w]
    exact ⟨rfl, rfl⟩
  · intro es
    have hinv : (∀ r ∈ (ruleRun es).activeRuleIds,
        r ∈ (ruleRun es).sessionRules) ∧
        (∀ r ∈ (ruleRun es).activeRuleIds, r < (ruleRun es).ruleIdCounter) ∧
        (ruleRun es).activeRuleIds.Nodup := by
      unfold ruleRun
      generalize hini : initRules = w0
      have hbase : (∀ r ∈ w0.activeRuleIds, r ∈ w0.sessionRules) ∧
          (∀ r ∈ w0.activeRuleIds, r < w0.ruleIdCounter) ∧
          w0.activeRuleIds.Nodup := by
        rw [← hini]
        refine ⟨?_, ?_, ?_⟩ <;> simp [initRules]
      clear hini
      induction es generalizing w0 with
      | nil => exact hbase
      | cons evt rest ih =>
        simp only [List.foldl_cons]
        exact ih _ (hstep w0 evt hbase)
    exact ⟨hinv.1, hinv.2.2⟩

/-- C7 witness: the theorem applied at concrete states — a clear with no
tracked rules is a no-op on the initial state, and the id tracked after one
successful installation is installed in the session. -/
theorem C7_rule_tracking_witness :
    ruleStep initRules (RuleEvt.clearAll true) = initRules ∧
    1000 ∈ (ruleRun [RuleEvt.add true]).sessionRules :=
  ⟨C7_rule_tracking.1 initRules true rfl,
    (C7_rule_tracking.2.2.2.2.2 [RuleEvt.add true]).1 1000 (by decide)⟩

/-- C7 counterexample: after one successful installation, a clearAll whose
removal call fails leaves the installed id tracked, so the tracked set is
neither emptied by the call nor equal to the ids installed since that
clearAll. -/
theorem C7_counterexample :
    (ruleRun [RuleEvt.add true, RuleEvt.clearAll false]).activeRuleIds =
      [1000] ∧
    (ruleRun [RuleEvt.add true, RuleEvt.clearAll false]).activeRuleIds ≠
      [] := by
  constructor
  · decide
  · decide

/-- C8: the extraction pipeline treats whitespace-only results as failure,
never as success with empty text — a blank document is rejected as
`EMPTY_DOCUMENT`; a transform output that trims to nothing lands in the
no-content error path; and every successful result is the trimmed,
non-empty transform output. -/
theorem C8_empty_extraction (transform : Str → Str) (html : Str) :
    (strTrim html = [] →
      extractMarkdownFromHtml transform html =
        Except.error ExtractionError.emptyDocument) ∧
    (strTrim html ≠ [] → strTrim (transform html) = [] →
      summaryPipeline transform html = SummaryOutcome.noContent) ∧
    (∀ t, summaryPipeline transform html = SummaryOutcome.readyWith t →
      t = strTrim (transform html) ∧ t ≠ []) := by
  refine ⟨?_, ?_, ?_⟩
  · intro h
    simp [extractMarkdownFromHtml, h]
  · intro h1 h2
    simp [summaryPipeline, extractMarkdownFromHtml, h1, h2]
  · intro t ht
    by_cases h1 : strTrim html = []
    · simp [summaryPipeline, extractMarkdownFromHtml, h1] at ht
    · by_cases h2 : strTrim (transform html) = []
      · simp [summaryPipeline, extractMarkdownFromHtml, h1, h2] at ht
      · simp [summaryPipeline, extractMarkdownFromHtml, h1, h2] at ht
        exact ⟨ht.symm, ht ▸ h2⟩

/-- C8 witness: the theorem applied at a concrete transform producing only
whitespace — the pipeline ends in the no-content error path. -/
theorem C8_empty_extraction_witness :
    summaryPipeline (fun _ => str "  ") (str "<p>x</p>") =
      SummaryOutcome.noContent :=
  (C8_empty_extraction (fun _ => str "  ") (str "<p>x</p>")).2.1
    (by decide) (by decide)

/-- C10: `normalizeUrl` yields `null` on null/blank input; any returned
string is the serialisation of a URL parsed, with an http(s) protocol,
from the trimmed input or — when the input lacks an http(s) scheme — from
the input with `https://` prepended; and when neither attempt parses with
an http(s) protocol the result is `null`, so no non-http(s) URL can start
a preview request. -/
theorem firstHttpAttempt_eq_some (parseUrl : Str → Option UrlObj) :
    ∀ (l : List Str) (s : Str), firstHttpAttempt parseUrl l = some s →
      ∃ a ∈ l, ∃ u, parseUrl a = some u ∧ isHttpProtocol u.protocol = true ∧
        s = u.serialized := by
  intro l
  induction l with
  | nil =>
    intro s h
    simp [firstHttpAttempt] at h
  | cons a rest ih =>
    intro s h
    simp only [firstHttpAttempt] at h
    split at h
    next u hu =>
      split at h
      next hproto =>
        exact ⟨a, List.mem_cons_self _ _, u, hu, hproto,
          (Option.some.inj h).symm⟩
      next hproto =>
        rcases ih s h with ⟨b, hb, u', hu'⟩
        exact ⟨b, List.mem_cons_of_mem a hb, u', hu'⟩
    next hu =>
      rcases ih s h with ⟨b, hb, u', hu'⟩
      exact ⟨b, List.mem_cons_of_mem a hb, u', hu'⟩

theorem firstHttpAttempt_eq_none (parseUrl : Str → Option UrlObj) :
    ∀ l : List Str, (∀ a ∈ l, optionNonHttp (parseUrl a) = true) →
      firstHttpAttempt parseUrl l = none := by
  intro l
  induction l with
  | nil => intro _; rfl
  | cons a rest ih =>
    intro h
    have ha := h a (List.mem_cons_self _ _)
    have hrest := ih fun b hb => h b (List.mem_cons_of_mem a hb)
    simp only [firstHttpAttempt]
    cases hp : parseUrl a with
    | none => exact hrest
    | some u =>
      rw [hp] at ha
      simp only [optionNonHttp, Bool.not_eq_true'] at ha
      simp [ha, hrest]

theorem C10_normalize_url (parseUrl : Str → Option UrlObj) :
    normalizeUrl parseUrl none = none ∧
    (∀ c, strTrim c = [] → normalizeUrl parseUrl (some c) = none) ∧
    (∀ c s, normalizeUrl parseUrl (some c) = some s →
      ∃ u, isHttpProtocol u.protocol = true ∧ s = u.serialized ∧
        (parseUrl (strTrim c) = some u ∨
          (hasHttpScheme (strTrim c) = false ∧
            parseUrl (str "https://" ++ strTrim c) = some u))) ∧
    (∀ c, optionNonHttp (parseUrl (strTrim c)) = true →
      optionNonHttp (parseUrl (str "https://" ++ strTrim c)) = true →
      normalizeUrl parseUrl (some c) = none) := by
  refine ⟨rfl, ?_, ?_, ?_⟩
  · intro c h
    simp [normalizeUrl, h]
  · intro c s h
    by_cases hblank : strTrim c = []
    · simp [normalizeUrl, hblank] at h
    · simp only [normalizeUrl, hblank, if_false] at h
      rcases firstHttpAttempt_eq_some parseUrl _ s h with
        ⟨a, ha, u, hu, hproto, hs⟩
      refine ⟨u, hproto, hs, ?_⟩
      rcases List.mem_append.mp ha with hmem | hmem
      · simp only [List.mem_singleton] at hmem
        exact Or.inl (hmem ▸ hu)
      · by_cases hscheme : hasHttpScheme (strTrim c) = true
        · rw [if_pos hscheme] at hmem
          simp at hmem
        · simp only [Bool.not_eq_true] at hscheme
          rw [if_neg (by simp [hscheme])] at hmem
          simp only [List.mem_singleton] at hmem
          exact Or.inr ⟨hscheme, hmem ▸ hu⟩
  · intro c h1 h2
    by_cases hblank : strTrim c = []
    · simp [normalizeUrl, hblank]
    · simp only [normalizeUrl, hblank, if_false]
      apply firstHttpAttempt_eq_none
      intro a ha
      rcases List.mem_append.mp ha with hmem | hmem
      · simp only [List.mem_singleton] at hmem
        exact hmem ▸ h1
      · by_cases hscheme : hasHttpScheme (strTrim c) = true
        · rw [if_pos hscheme] at hmem
          simp at hmem
        · simp only [Bool.not_eq_true] at hscheme
          rw [if_neg (by simp [hscheme])] at hmem
          simp only [List.mem_singleton] at hmem
          exact hmem ▸ h2

/-- C10 witness: the theorem applied at a concrete URL constructor —
whitespace input yields null, a javascript: URL yields null, and a
successful normalisation came from the https-prefixed retry. -/
theorem C10_normalize_url_witness :
    normalizeUrl parseDemo (some (str "   ")) = none ∧
    normalizeUrl parseDemo (some (str "javascript:alert(1)")) = none ∧
    (∃ u, isHttpProtocol u.protocol = true ∧
      str "https://example.com/" = u.serialized ∧
      (parseDemo (strTrim (str "example.com")) = some u ∨
        (hasHttpScheme (strTrim (str "example.com")) = false ∧
          parseDemo (str "https://" ++ strTrim (str "example.com")) =
            some u))) := by
  refine ⟨?_, ?_, ?_⟩
  · exact (C10_normalize_url parseDemo).2.1 (str "   ") (by decide)
  · exact (C10_normalize_url parseDemo).2.2.2 (str "javascript:alert(1)")
      (by decide) (by decide)
  · exact (C10_normalize_url parseDemo).2.2.1 (str "example.com")
      (str "https://example.com/") (by decide)

/-! ### Correctness of the `/<head[^>]*>/i` scanner -/

theorem isPrefixOf_eq_take {l s : Str} (h : l.isPrefixOf s = true) :
    s.take l.length = l := by
  induction l generalizing s with
  | nil => rfl
  | cons a as ih =>
    cases s with
    | nil => simp [List.isPrefixOf] at h
    | cons b bs =>
      simp only [List.isPrefixOf, Bool.and_eq_true, beq_iff_eq] at h
      obtain ⟨hab, hrest⟩ := h
      subst hab
      simp [List.take_succ_cons, ih hrest]

theorem length_le_of_isPrefixOf {l s : Str} (h : l.isPrefixOf s = true) :
    l.length ≤ s.length := by
  have ht := isPrefixOf_eq_take h
  have := congrArg List.length ht
  rw [List.length_take] at this
  omega

theorem isPrefixOf_append_self (l t : Str) : l.isPrefixOf (l ++ t) = true := by
  induction l with
  | nil => simp [List.isPrefixOf]
  | cons a as ih => simp [List.isPrefixOf, ih]

theorem dropWhile_head_false {p : Char → Bool} :
    ∀ (l : Str) (x : Char) (xs : Str), l.dropWhile p = x :: xs →
      p x = false := by
  intro l
  induction l with
  | nil => intro x xs h; simp at h
  | cons a as ih =>
    intro x xs h
    by_cases hpa : p a = true
    · rw [List.dropWhile_cons_of_pos hpa] at h
      exact ih x xs h
    · simp only [Bool.not_eq_true] at hpa
      rw [List.dropWhile_cons_of_neg (by simp [hpa])] at h
      cases h
      exact hpa

theorem takeWhile_of_sat_prefix {p : Char → Bool} (inner : Str)
    (hinner : ∀ c ∈ inner, p c = true) (x : Char) (hx : p x = false)
    (rest : Str) :
    (inner ++ x :: rest).takeWhile p = inner ∧
      (inner ++ x :: rest).dropWhile p = x :: rest := by
  induction inner with
  | nil =>
    constructor
    · simp [List.takeWhile_cons, hx]
    · simp [List.dropWhile_cons, hx]
  | cons a as ih =>
    have ha : p a = true := hinner a (List.mem_cons_self _ _)
    have has : ∀ c ∈ as, p c = true :=
      fun c hc => hinner c (List.mem_cons_of_mem a hc)
    obtain ⟨iht, ihd⟩ := ih has
    constructor
    · simp [List.takeWhile_cons, ha, iht]
    · simp [List.dropWhile_cons, ha, ihd]

theorem headMatchLen_sound (s : Str) (n : Nat)
    (h : headMatchLen s = some n) : HeadMatchAt s n := by
  unfold headMatchLen at h
  by_cases hpre : (str "<head").isPrefixOf (s.map Char.toLower) = true
  · rw [if_pos hpre] at h
    set t := s.drop 5 with ht
    set inner := t.takeWhile (fun c => c ≠ '>') with hin
    by_cases hdone : t.drop inner.length = []
    · rw [if_pos hdone] at h
      exact absurd h (by simp)
    · rw [if_neg hdone] at h
      have hn : n = 5 + inner.length + 1 := (Option.some.inj h).symm
      have hlen5 : 5 ≤ s.length := by
        have := length_le_of_isPrefixOf hpre
        simpa using this
      have hsplit : t = inner ++ t.dropWhile (fun c => c ≠ '>') := by
        rw [hin]
        exact (List.takeWhile_append_dropWhile _ _).symm
      have hdrop : t.drop inner.length = t.dropWhile (fun c => c ≠ '>') := by
        conv_lhs => rw [hsplit]
        exact List.drop_left _ _
      rw [hdrop] at hdone
      cases hd : t.dropWhile (fun c => c ≠ '>') with
      | nil => exact absurd hd hdone
      | cons x rs =>
        have hx : (decide ¬(x = '>')) = false := dropWhile_head_false _ x rs hd
        have hxeq : x = '>' := by
          by_contra hne
          simp [hne] at hx
        subst hxeq
        refine ⟨s.take 5, inner, rs, ?_, ?_, ?_, ?_, ?_⟩
        · have hts : s = s.take 5 ++ t := by
            rw [ht]
            exact (List.take_append_drop 5 s).symm
          rw [List.append_assoc]
          rw [← hd, ← hsplit]
          exact hts
        · simp [List.length_take, Nat.min_eq_left hlen5]
        · have hpt := isPrefixOf_eq_take hpre
          have hfive : (str "<head").length = 5 := rfl
          rw [hfive] at hpt
          rw [← List.map_take] at hpt
          exact hpt
        · intro c hc
          rw [hin] at hc
          have := List.mem_takeWhile_imp hc
          simpa using this
        · omega
  · rw [if_neg hpre] at h
    exact absurd h (by simp)

theorem headMatchLen_complete (s : Str) (n : Nat) (h : HeadMatchAt s n) :
    headMatchLen s = some n := by
  obtain ⟨pre, inner, rest, hs, hlen, hlower, hinner, hn⟩ := h
  have hpre : (str "<head").isPrefixOf (s.map Char.toLower) = true := by
    rw [hs, List.append_assoc, List.map_append, ← hlower]
    exact isPrefixOf_append_self _ _
  have hdrop5 : s.drop 5 = inner ++ '>' :: rest := by
    rw [hs, ← hlen, List.append_assoc]
    exact List.drop_left _ _
  have hinner' : ∀ c ∈ inner, (decide ¬(c = '>')) = true := by
    intro c hc
    simp [hinner c hc]
  obtain ⟨htake, hdropw⟩ :=
    takeWhile_of_sat_prefix inner hinner' '>' (by simp) rest
  unfold headMatchLen
  rw [if_pos hpre, hdrop5, htake]
  have hrest :
      (inner ++ '>' :: rest).drop inner.length = '>' :: rest :=
    List.drop_left _ _
  rw [hrest]
  simp only [reduceCtorEq, if_false]
  congr 1
  omega

theorem findHead_spec : ∀ s : Str,
    (findHead s = none → ∀ i n, ¬ HeadTagAt s i n) ∧
    (∀ i n, findHead s = some (i, n) →
      HeadTagAt s i n ∧ ∀ j m, HeadTagAt s j m → i ≤ j) := by
  intro s
  induction s with
  | nil =>
    constructor
    · intro _ i n h
      have hml := headMatchLen_complete _ _ h
      rw [List.drop_nil] at hml
      have hnil : headMatchLen ([] : Str) = none := by decide
      rw [hnil] at hml
      exact absurd hml (by simp)
    · intro i n h
      simp [findHead] at h
  | cons c rest ih =>
    cases hml : headMatchLen (c :: rest) with
    | some k =>
      have hfind : findHead (c :: rest) = some (0, k) := by
        simp [findHead, hml]
      constructor
      · intro hnone
        rw [hfind] at hnone
        exact absurd hnone (by simp)
      · intro i n h
        rw [hfind] at h
        have hik : i = 0 ∧ n = k := by
          have := Option.some.inj h
          exact ⟨congrArg Prod.fst this.symm, congrArg Prod.snd this.symm⟩
        obtain ⟨hi, hnk⟩ := hik
        subst hi; subst hnk
        refine ⟨headMatchLen_sound _ _ hml, fun j m _ => Nat.zero_le j⟩
    | none =>
      cases hf : findHead rest with
      | none =>
        have hnomatch : ∀ i n, ¬ HeadTagAt (c :: rest) i n := by
          intro i n h
          cases i with
          | zero =>
            have := headMatchLen_complete _ _ h
            rw [List.drop_zero] at this
            rw [this] at hml
            exact absurd hml (by simp)
          | succ i' =>
            have h' : HeadTagAt rest i' n := by
              have : (c :: rest).drop (i' + 1) = rest.drop i' := rfl
              unfold HeadTagAt at h ⊢
              rwa [this] at h
            exact (ih.1 hf) i' n h'
        constructor
        · intro _
          exact hnomatch
        · intro i n h
          simp [findHead, hml, hf] at h
      | some p =>
        obtain ⟨i0, n0⟩ := p
        have hfind : findHead (c :: rest) = some (i0 + 1, n0) := by
          simp [findHead, hml, hf]
        constructor
        · intro hnone
          rw [hfind] at hnone
          exact absurd hnone (by simp)
        · intro i n h
          rw [hfind] at h
          have heq := Option.some.inj h
          have hi : i = i0 + 1 := congrArg Prod.fst heq.symm
          have hn : n = n0 := congrArg Prod.snd heq.symm
          subst hi; subst hn
          obtain ⟨hsound, hmin⟩ := ih.2 i0 n (hf)
          constructor
          · have : (c :: rest).drop (i0 + 1) = rest.drop i0 := rfl
            unfold HeadTagAt at hsound ⊢
            rwa [this]
          · intro j m hj
            cases j with
            | zero =>
              have := headMatchLen_complete _ _ hj
              rw [List.drop_zero] at this
              rw [this] at hml
              exact absurd hml (by simp)
            | succ j' =>
              have hj' : HeadTagAt rest j' m := by
                have : (c :: rest).drop (j' + 1) = rest.drop j' := rfl
                unfold HeadTagAt at hj ⊢
                rwa [this] at hj
              exact Nat.succ_le_succ (hmin j' m hj')

/-- C6 (amended): for every successfully retrieved document the returned
HTML is the input with the base-resolution directive inserted —
immediately after the first match of the case-insensitive pattern
`<head[^>]*>` (the code's head-tag test, which also fires on any tag whose
name merely starts with `head`, such as `<header ...>`; `HeadTagAt` is
that pattern's declarative form) when one exists, else prepended (with a
newline) before the unchanged document text; the directive's href is the
parsed URL's origin plus its pathname with the last segment stripped,
falling back to the raw URL when parsing fails; and the URL used is the
final post-redirect URL, falling back to the original URL when no final
URL is available. -/
theorem C6_base_rewrite (parseUrl : Str → Option UrlParts)
    (html url body : Str) :
    ((∀ i n, ¬ HeadTagAt html i n) →
      rewriteHtml parseUrl html url =
        baseTagFor parseUrl url ++ str "\n" ++ html) ∧
    (∀ i n, HeadTagAt html i n → (∀ j m, HeadTagAt html j m → i ≤ j) →
      rewriteHtml parseUrl html url =
        html.take (i + n) ++ str "\n" ++ baseTagFor parseUrl url ++
          html.drop (i + n)) ∧
    (∀ parts, parseUrl url = some parts →
      computeBaseHref parseUrl url =
        parts.origin ++ stripLastSegment parts.pathname) ∧
    (parseUrl url = none → computeBaseHref parseUrl url = url) ∧
    baseTagFor parseUrl url =
      str "<base href=\"" ++ escapeAttribute (computeBaseHref parseUrl url) ++
        str "\">" ∧
    (∀ f, f ≠ [] →
      fetchRewrite parseUrl body (some f) url = rewriteHtml parseUrl body f) ∧
    fetchRewrite parseUrl body none url = rewriteHtml parseUrl body url ∧
    fetchRewrite parseUrl body (some []) url =
      rewriteHtml parseUrl body url := by
  refine ⟨?_, ?_, ?_, ?_, rfl, ?_, rfl, rfl⟩
  · intro h
    cases hfind : findHead html with
    | none => simp [rewriteHtml, hfind]
    | some p =>
      obtain ⟨i, n⟩ := p
      have := ((findHead_spec html).2 i n hfind).1
      exact absurd this (h i n)
  · intro i n hmatch hmin
    cases hfind : findHead html with
    | none =>
      exact absurd hmatch ((findHead_spec html).1 hfind i n)
    | some p =>
      obtain ⟨i', n'⟩ := p
      obtain ⟨hsound, hmin'⟩ := (findHead_spec html).2 i' n' hfind
      have hii : i = i' := Nat.le_antisymm (hmin i' n' hsound) (hmin' i n hmatch)
      subst hii
      have hnn : n = n' := by
        have h1 := headMatchLen_complete _ _ hmatch
        have h2 := headMatchLen_complete _ _ hsound
        rw [h1] at h2
        exact Option.some.inj h2
      subst hnn
      simp [rewriteHtml, hfind]
  · intro parts h
    simp [computeBaseHref, h]
  · intro h
    simp [computeBaseHref, h]
  · intro f hf
    simp [fetchRewrite, resolveFinalUrl, hf]

/-- C6 witness: the theorem applied at concrete documents — a document with
no head tag gets the directive prepended verbatim; a document starting with
`<head>` gets the directive inserted right after the tag; the href falls
back to the raw URL for an unparseable URL. -/
theorem C6_base_rewrite_witness :
    rewriteHtml (fun _ => none) (str "<p>hi</p>") (str "u") =
      baseTagFor (fun _ => none) (str "u") ++ str "\n" ++ str "<p>hi</p>" ∧
    rewriteHtml (fun _ => none) (str "<head>x") (str "u") =
      (str "<head>x").take 6 ++ str "\n" ++
        baseTagFor (fun _ => none) (str "u") ++ (str "<head>x").drop 6 ∧
    computeBaseHref (fun _ => none) (str "u") = str "u" := by
  refine ⟨?_, ?_, ?_⟩
  · exact (C6_base_rewrite (fun _ => none) (str "<p>hi</p>") (str "u")
      (str "")).1 ((findHead_spec (str "<p>hi</p>")).1 (by decide))
  · refine (C6_base_rewrite (fun _ => none) (str "<head>x") (str "u")
      (str "")).2.1 0 6 ?_ (fun j m _ => Nat.zero_le j)
    refine ⟨str "<head", [], str "x", by decide, by decide, by decide,
      ?_, by decide⟩
    intro c hc
    exact absurd hc (List.not_mem_nil c)
  · exact (C6_base_rewrite (fun _ => none) (str "") (str "u")
      (str "")).2.2.2.1 rfl

/-- C6 counterexample: the insertion branch is keyed on the regex
`/<head[^>]*>/i`, which also matches tags whose name merely starts with
`head`: on `"<header>x"` — a document with no `<head>` opening tag — the
directive is inserted after `<header>` instead of being prepended, so the
claim's "otherwise the directive is prepended verbatim" clause is false of
the program. -/
theorem C6_counterexample :
    rewriteHtml (fun _ => none) (str "<header>x") (str "u") =
      str "<header>\n" ++ baseTagFor (fun _ => none) (str "u") ++ str "x" ∧
    rewriteHtml (fun _ => none) (str "<header>x") (str "u") ≠
      baseTagFor (fun _ => none) (str "u") ++ str "\n" ++
        str "<header>x" := by
  constructor
  · decide
  · decide

/-- C1: evaluation at the failing interleaving — trigger T1 (request id 1)
passes `renderHtml`'s staleness guard, trigger T2 (request id 2) is issued
while T1's ADD_CSP_BYPASS round trip is awaited, and T1's continuation then
assigns T1's URL to the iframe without re-checking `isCurrentRequest`:
presentation state receives output attributable to T1 after T2 was
issued. -/
theorem C1_staleness_violation :
    (prun (initPanel true [])
        [PEvent.trigger (str "https://one.example/"),
         PEvent.renderStart 1 (str "<html>1</html>") (str "https://one.example/"),
         PEvent.trigger (str "https://two.example/"),
         PEvent.renderResumeEvt]).activeRequestId = some 2 ∧
    (prun (initPanel true [])
        [PEvent.trigger (str "https://one.example/"),
         PEvent.renderStart 1 (str "<html>1</html>") (str "https://one.example/"),
         PEvent.trigger (str "https://two.example/"),
         PEvent.renderResumeEvt]).frameSrc = some (str "https://one.example/") ∧
    str "https://one.example/" ≠ str "https://two.example/" := by
  refine ⟨?_, ?_, ?_⟩
  · decide
  · decide
  · decide

/-- C5: evaluation at the claimed scenario — model not ready, fetch
succeeds. `renderHtml` returns before anything is handed to the iframe, so
the panel never leaves the loading presentation and the frame never
receives the URL; the summary area has been blocked since the trigger.
The claimed `idle→fetching→rendering→blocked` sequence with the URL handed
to the presentation surface does not occur. -/
theorem C5_blocked_skips_rendering :
    (prun (initPanel false (str "尚未配置大模型"))
        [PEvent.trigger (str "https://example.com/a"),
         PEvent.renderStart 1 (str "<html>a</html>") (str "https://example.com/a"),
         PEvent.renderResumeEvt]).frameSrc = none ∧
    (prun (initPanel false (str "尚未配置大模型"))
        [PEvent.trigger (str "https://example.com/a"),
         PEvent.renderStart 1 (str "<html>a</html>") (str "https://example.com/a"),
         PEvent.renderResumeEvt]).panelDataState = PanelDataState.loading ∧
    (prun (initPanel false (str "尚未配置大模型"))
        [PEvent.trigger (str "https://example.com/a"),
         PEvent.renderStart 1 (str "<html>a</html>") (str "https://example.com/a"),
         PEvent.renderResumeEvt]).summaryState = SummaryState.blocked ∧
    (prun (initPanel false (str "尚未配置大模型"))
        [PEvent.trigger (str "https://example.com/a"),
         PEvent.renderStart 1 (str "<html>a</html>") (str "https://example.com/a"),
         PEvent.renderResumeEvt]).pendingRender = [] := by
  refine ⟨?_, ?_, ?_, ?_⟩ <;> decide

end Glance
